import Mathlib

/-!
Shallow embedding of the covest coverage-estimation core
(`src/covest/models.py` and `src/covest.py`).

Real-valued quantities are modelled over `ℚ`; the numeric primitives that the
source consumes from outside the modelled core (Python `math.exp`, `math.log`
inside `safe_log`, and the C extension `covest_poisson.truncated_poisson`) are
passed in as explicit function parameters, so every definition stays
executable.  Python dictionaries (the histogram, the predicted distribution)
are modelled as association lists in insertion order.
-/

namespace Covest

/-- Modelled from the spec: `covest/utils.py` is not part of the provided
sources.  The spec requires `log(0)` to be "handled as a large negative finite
penalty, not a propagated failure".  The penalty constant used by `safe_log`
for a nonpositive argument. -/
def logPenalty : ℚ := -(10 ^ 100)

/-- Modelled from the spec: `safe_log` from the missing `covest/utils.py`.
For a positive argument it is the underlying logarithm `flog`; for a
nonpositive argument it returns the large finite negative penalty. -/
def safe_log (flog : ℚ → ℚ) (x : ℚ) : ℚ :=
  if x ≤ 0 then logPenalty else flog x

/-- Modelled from the spec: `fix_zero` from the missing `covest/utils.py`.
"If the normalizing sum for an error class is zero, treat it as 1 to avoid
division errors." -/
def fix_zero (x : ℚ) : ℚ :=
  if x = 0 then 1 else x

/-- One step of `BasicModel.fit_to_bounds`: clip a single argument into an
optional `(lower, upper)` bound pair, lower bound checked first
(`models.py` lines 60-69). -/
def clip1 (l r : Option ℚ) (a : ℚ) : ℚ :=
  match l with
  | some lv =>
    if a < lv then lv
    else
      match r with
      | some rv => if rv < a then rv else a
      | none => a
  | none =>
    match r with
    | some rv => if rv < a then rv else a
    | none => a

/-- `BasicModel.fit_to_bounds` (`models.py` lines 60-69): clip each argument
into the corresponding bound pair; `zip` semantics leave arguments beyond the
bounds list unchanged.  (The Python `None`-argument passthrough concerns
partially supplied CLI vectors and is outside the numeric vectors modelled
here.) -/
def fit_to_bounds : List (Option ℚ × Option ℚ) → List ℚ → List ℚ
  | _, [] => []
  | [], a :: rest => a :: rest
  | (l, r) :: bs, a :: rest => clip1 l r a :: fit_to_bounds bs rest

/-- `self.comb[s] = comb(k, s) * 3 ** s` (`models.py` line 25). -/
def combCoef (k s : ℕ) : ℚ :=
  (Nat.choose k s : ℚ) * 3 ^ s

/-- `BasicModel.correct_c` (`models.py` lines 71-72):
`c * (r - k + 1) / r`. -/
def correct_c (k r : ℕ) (c : ℚ) : ℚ :=
  c * ((r : ℚ) - (k : ℚ) + 1) / (r : ℚ)

/-- `BasicModel._get_lambda_s` (`models.py` lines 74-79):
`lambda_s = c * 3^-s * (1-err)^(k-s) * err^s` (here `c` is already the
corrected k-mer coverage, as at the call sites). -/
def lambda_s (k : ℕ) (ck err : ℚ) (s : ℕ) : ℚ :=
  ck * (3 : ℚ) ^ (-(s : ℤ)) * (1 - err) ^ (k - s) * err ^ s

/-- The derived `max_error` field of `BasicModel.__init__`
(`models.py` lines 28-31): `k + 1` when absent, else `min (k+1)` of the
given cutoff. -/
def maxErrorOf (k : ℕ) (me : Option ℕ) : ℕ :=
  match me with
  | none => k + 1
  | some m => min (k + 1) m

/-- `BasicModel` (`models.py` lines 17-31).  The histogram dictionary is an
association list multiplicity ↦ count in insertion order; `max_error` is
stored already derived via `maxErrorOf`. -/
structure BasicModel where
  k : ℕ
  r : ℕ
  hist : List (ℕ × ℕ)
  tail : ℚ
  max_cov : Option ℚ
  max_error : ℕ

/-- `self.bounds = ((0.01, max_cov), (0, 0.5))` (`models.py` line 23). -/
def BasicModel.bounds (M : BasicModel) : List (Option ℚ × Option ℚ) :=
  [(some (1 / 100), M.max_cov), (some 0, some (1 / 2))]

/-- `n_s[s] = comb[s] * (1 - exp(-l_s[s]))` (`models.py` line 87). -/
def BasicModel.n_s (M : BasicModel) (fexp : ℚ → ℚ) (ck err : ℚ) (s : ℕ) : ℚ :=
  combCoef M.k s * (1 - fexp (-(lambda_s M.k ck err s)))

/-- `sum_n_s = fix_zero(sum(n_s[t] for t in range(max_error)))`
(`models.py` line 88). -/
def BasicModel.sum_n_s (M : BasicModel) (fexp : ℚ → ℚ) (ck err : ℚ) : ℚ :=
  fix_zero (∑ t in Finset.range M.max_error, M.n_s fexp ck err t)

/-- `a_s[s] = n_s[s] / sum_n_s` (`models.py` line 90). -/
def BasicModel.a_s (M : BasicModel) (fexp : ℚ → ℚ) (ck err : ℚ) (s : ℕ) : ℚ :=
  M.n_s fexp ck err s / M.sum_n_s fexp ck err

/-- The value of the dictionary entry `p_j[j]` built by
`BasicModel.compute_probabilities` (`models.py` lines 92-97), with the
read-to-kmer coverage correction of line 83 applied to `c`. -/
def BasicModel.p_val (M : BasicModel) (fexp : ℚ → ℚ) (trP : ℚ → ℕ → ℚ)
    (c err : ℚ) (j : ℕ) : ℚ :=
  ∑ s in Finset.range M.max_error,
    M.a_s fexp (correct_c M.k M.r c) err s *
      trP (lambda_s M.k (correct_c M.k M.r c) err s) j

/-- `BasicModel.compute_probabilities` (`models.py` lines 81-98): the
dictionary `{j: p_j[j] for j in hist}` as an association list keyed by the
histogram's multiplicities. -/
def BasicModel.compute_probabilities (M : BasicModel) (fexp : ℚ → ℚ)
    (trP : ℚ → ℕ → ℚ) (c err : ℚ) : List (ℕ × ℚ) :=
  M.hist.map fun je => (je.1, M.p_val fexp trP c err je.1)

/-- The shared body of `compute_loglikelihood` (`models.py` lines 100-107),
parameterised by the bounds and by the model's predicted distribution (as the
function `j ↦ p_j[j]` of the clipped argument vector), which is how
`RepeatsModel` inherits the method while overriding `compute_probabilities`
and `bounds`. -/
def loglikelihood_core (bounds : List (Option ℚ × Option ℚ))
    (hist : List (ℕ × ℕ)) (tail : ℚ) (flog : ℚ → ℚ)
    (pfun : List ℚ → ℕ → ℚ) (args : List ℚ) : ℚ :=
  let a := fit_to_bounds bounds args
  let sp := min 1 ((hist.map fun je => pfun a je.1).sum)
  let tailTerm := if sp < 1 then tail * safe_log flog (1 - sp) else 0
  ((hist.filter fun je => je.2 ≠ 0).map fun je =>
    (je.2 : ℚ) * safe_log flog (pfun a je.1)).sum + tailTerm

/-- `BasicModel.compute_loglikelihood` (`models.py` lines 100-107): clip the
argument vector to the bounds, build `p_j`, and score. -/
def BasicModel.compute_loglikelihood (M : BasicModel) (fexp flog : ℚ → ℚ)
    (trP : ℚ → ℕ → ℚ) (args : List ℚ) : ℚ :=
  loglikelihood_core M.bounds M.hist M.tail flog
    (fun a j => M.p_val fexp trP (a.getD 0 0) (a.getD 1 0) j) args

/-- `RepeatsModel` (`models.py` lines 173-183).  `super().__init__` is called
without `max_cov`, so the inherited coverage bound is open above; the extra
repeat-parameter bounds are `((min_single_copy, 1), (0, 1), (0, 1))`.
`threshold` is the copy-number truncation threshold (default `1e-8`,
possibly `None`). -/
structure RepeatsModel where
  k : ℕ
  r : ℕ
  hist : List (ℕ × ℕ)
  tail : ℚ
  max_error : ℕ
  threshold : Option ℚ
  min_single_copy : ℚ

/-- `self.bounds` of `RepeatsModel.__init__` (`models.py` line 179): basic
bounds (with unset `max_cov`) extended by the three repeat-parameter
bounds. -/
def RepeatsModel.bounds (M : RepeatsModel) : List (Option ℚ × Option ℚ) :=
  [(some (1 / 100), none), (some 0, some (1 / 2)),
   (some M.min_single_copy, some 1), (some 0, some 1), (some 0, some 1)]

/-- `RepeatsModel.get_b_o` (`models.py` lines 193-208): the copy-number
distribution `b_o` as a function of `o`. -/
def RepeatsModel.get_b_o (q1 q2 q : ℚ) (o : ℕ) : ℚ :=
  if o = 0 then 0
  else if o = 1 then q1
  else if o = 2 then (1 - q1) * q2
  else (1 - q1) * (1 - q2) * q * (1 - q) ^ (o - 3)

/-- The linear search of `RepeatsModel.get_hist_threshold`
(`models.py` lines 185-191): scan `n` consecutive values of `o` starting at
`start`, returning the first with `b_o(o) <= threshold`. -/
def threshold_scan (b : ℕ → ℚ) (θ : ℚ) : ℕ → ℕ → Option ℕ
  | _, 0 => none
  | o, n + 1 => if b o ≤ θ then some o else threshold_scan b θ (o + 1) n

/-- `max(self.hist)`: the largest multiplicity key of the histogram
(the source never takes it on an empty histogram, which the spec rules out;
`0` is returned here in that vacuous case). -/
def histMax (hist : List (ℕ × ℕ)) : ℕ :=
  (hist.map Prod.fst).foldr max 0

/-- `RepeatsModel.get_hist_threshold` (`models.py` lines 185-191): the first
`o` in `range(1, hist_size)` with `b_o(o) <= threshold`, else `hist_size`;
when `threshold` is `None` the loop is skipped. -/
def RepeatsModel.get_hist_threshold (M : RepeatsModel) (b : ℕ → ℚ)
    (threshold : Option ℚ) : ℕ :=
  let hist_size := histMax M.hist
  match threshold with
  | none => hist_size
  | some θ =>
    match threshold_scan b θ 1 (hist_size - 1) with
    | some o => o
    | none => hist_size

/-- `n_os[o][s] = comb[s] * (1 - exp(o * -l_s[s]))` (`models.py` lines
220-223). -/
def RepeatsModel.n_os (M : RepeatsModel) (fexp : ℚ → ℚ) (ck err : ℚ)
    (o s : ℕ) : ℚ :=
  combCoef M.k s * (1 - fexp ((o : ℚ) * (-(lambda_s M.k ck err s))))

/-- `sum_n_os[o] = fix_zero(sum(n_os[o][t] for t in range(max_error)))`
(`models.py` lines 224-226). -/
def RepeatsModel.sum_n_os (M : RepeatsModel) (fexp : ℚ → ℚ) (ck err : ℚ)
    (o : ℕ) : ℚ :=
  fix_zero (∑ t in Finset.range M.max_error, M.n_os fexp ck err o t)

/-- `a_os[o][s] = n_os[o][s] / (sum_n_os[o] if sum_n_os[o] != 0 else 1)`
(`models.py` lines 230-233). -/
def RepeatsModel.a_os (M : RepeatsModel) (fexp : ℚ → ℚ) (ck err : ℚ)
    (o s : ℕ) : ℚ :=
  M.n_os fexp ck err o s /
    (if M.sum_n_os fexp ck err o ≠ 0 then M.sum_n_os fexp ck err o else 1)

/-- The dictionary entry `p_j[j]` of `RepeatsModel.compute_probabilities`
(`models.py` lines 211-242): a copy-number mixture over
`o in range(1, threshold_o)` of error-class mixtures at rate `o * l_s[s]`,
with the coverage correction of line 215 applied to `c`. -/
def RepeatsModel.p_val (M : RepeatsModel) (fexp : ℚ → ℚ) (trP : ℚ → ℕ → ℚ)
    (c err q1 q2 q : ℚ) (j : ℕ) : ℚ :=
  let b := RepeatsModel.get_b_o q1 q2 q
  let threshold_o := M.get_hist_threshold b M.threshold
  let ck := correct_c M.k M.r c
  ∑ o in Finset.Ico 1 threshold_o,
    b o * ∑ s in Finset.range M.max_error,
      M.a_os fexp ck err o s * trP ((o : ℚ) * lambda_s M.k ck err s) j

/-- `RepeatsModel.compute_probabilities` (`models.py` lines 211-242) as an
association list keyed by the histogram's multiplicities. -/
def RepeatsModel.compute_probabilities (M : RepeatsModel) (fexp : ℚ → ℚ)
    (trP : ℚ → ℕ → ℚ) (c err q1 q2 q : ℚ) : List (ℕ × ℚ) :=
  M.hist.map fun je => (je.1, M.p_val fexp trP c err q1 q2 q je.1)

/-- `RepeatsModel.compute_loglikelihood`: the method inherited unchanged from
`BasicModel` (`models.py` lines 100-107), dispatching to the overridden
`bounds` and `compute_probabilities`. -/
def RepeatsModel.compute_loglikelihood (M : RepeatsModel) (fexp flog : ℚ → ℚ)
    (trP : ℚ → ℕ → ℚ) (args : List ℚ) : ℚ :=
  loglikelihood_core M.bounds M.hist M.tail flog
    (fun a j => M.p_val fexp trP (a.getD 0 0) (a.getD 1 0) (a.getD 2 0)
      (a.getD 3 0) (a.getD 4 0) j) args

/-! ### The grid-search refiner `optimize_grid` (`src/covest.py` lines 263-325)

The configuration constants of the missing `config.py` (`STEP`,
`GRID_DEPTH`) are passed as explicit parameters, and the unbounded `while`
loop is given explicit fuel: running out of fuel corresponds to stopping the
loop from outside, which never happens on a terminating run given enough
fuel.  With `maximize=False` (the only call mode in the repository)
`sgn = 1`; the sign is kept as a parameter for fidelity. -/

/-- `generate_grid_single` (`covest.py` lines 267-274): for a free variable,
the candidates `var * step ** d` for `d in range(-max_depth, max_depth+1)`
with `d != 0`; for a fixed variable, just the fixed value. -/
def generate_grid_single (step var : ℚ) (depth : ℕ) (fx : Option ℚ) : List ℚ :=
  match fx with
  | none =>
    (((List.range (2 * depth + 1)).map fun n => (n : ℤ) - (depth : ℤ)).filter
      fun d => d ≠ 0).map fun d => var * step ^ d
  | some f => [f]

/-- `filter_bounds` (`covest.py` lines 276-283): keep only grid values inside
the `i`-th bound pair; no filtering when the bounds list does not reach
index `i`. -/
def filter_bounds (bounds : List (Option ℚ × Option ℚ)) (i : ℕ)
    (g : List ℚ) : List ℚ :=
  match bounds.get? i with
  | none => g
  | some (lo, hi) =>
    g.filter fun v =>
      (match lo with | none => true | some l => decide (l ≤ v)) &&
      (match hi with | none => true | some h => decide (v ≤ h))

/-- `itertools.product(*var_grids)` (`covest.py` line 289): the Cartesian
product of the per-variable candidate lists, first coordinate varying
slowest. -/
def list_product : List (List ℚ) → List (List ℚ)
  | [] => [[]]
  | g :: gs => g.flatMap fun x => (list_product gs).map fun xs => x :: xs

/-- `generate_grid(args, step, max_depth)` (`covest.py` lines 266-289). -/
def generate_grid (bounds : List (Option ℚ × Option ℚ))
    (fix : List (Option ℚ)) (args : List ℚ) (step : ℚ) (depth : ℕ) :
    List (List ℚ) :=
  list_product (args.enum.map fun iv =>
    filter_bounds bounds iv.1
      (generate_grid_single step iv.2 depth (fix.getD iv.1 none)))

/-- The loop state of `optimize_grid` (`covest.py` lines 295-299):
current best argument vector `min_args`, current best (signed) value
`min_val`, current step, and the improvement `diff` accumulated by the most
recent iteration (initially `1`). -/
structure GridState where
  args : List ℚ
  val : ℚ
  step : ℚ
  diff : ℚ

/-- The per-grid-point update of `optimize_grid` (`covest.py` lines 311-316)
on the accumulator `(min_val, min_args, diff)`: when the (signed) value of
the candidate strictly improves, add `min_val - val` to `diff` and move
`min_val`/`min_args` to the candidate. -/
def grid_update (fn : List ℚ → ℚ) (sgn : ℚ) (acc : ℚ × List ℚ × ℚ)
    (cand : List ℚ) : ℚ × List ℚ × ℚ :=
  if sgn * fn cand < acc.1 then (sgn * fn cand, cand, acc.2.2 + (acc.1 - fn cand))
  else acc

/-- One iteration of the `while` loop of `optimize_grid` (`covest.py` lines
302-319): reset `diff` to `0`, evaluate the whole neighbor grid, fold the
strict-improvement update over it in grid order, then shrink the step iff
the accumulated improvement is below `1.0`. -/
def grid_iter (fn : List ℚ → ℚ) (bounds : List (Option ℚ × Option ℚ))
    (fix : List (Option ℚ)) (depth : ℕ) (sgn : ℚ) (s : GridState) :
    GridState :=
  let grid := generate_grid bounds fix s.args s.step depth
  let t := grid.foldl (grid_update fn sgn) (s.val, s.args, 0)
  { args := t.2.1
    val := t.1
    step := if t.2.2 < 1 then 1 + (s.step - 1) * (3 / 4) else s.step
    diff := t.2.2 }

/-- The fueled `while diff > 0.1 or step > 1.001` loop of `optimize_grid`
(`covest.py` line 302). -/
def grid_loop (fn : List ℚ → ℚ) (bounds : List (Option ℚ × Option ℚ))
    (fix : List (Option ℚ)) (depth : ℕ) (sgn : ℚ) :
    ℕ → GridState → GridState
  | 0, s => s
  | fuel + 1, s =>
    if 1 / 10 < s.diff ∨ 1001 / 1000 < s.step then
      grid_loop fn bounds fix depth sgn fuel (grid_iter fn bounds fix depth sgn s)
    else s

/-- `optimize_grid` (`covest.py` lines 263-325): seed the state with the
initial guess, its (signed) objective value, the configured starting step and
`diff = 1`, run the loop, and return the best argument vector.  The
`pickle`/`unpack_call` round-trip of the worker fan-out is the identity on
the objective and is elided. -/
def optimize_grid (fn : List ℚ → ℚ) (initial_guess : List ℚ)
    (bounds : List (Option ℚ × Option ℚ)) (maximize : Bool)
    (fix : List (Option ℚ)) (step0 : ℚ) (depth fuel : ℕ) : List ℚ :=
  let sgn : ℚ := if maximize then -1 else 1
  (grid_loop fn bounds fix depth sgn fuel
    { args := initial_guess
      val := sgn * fn initial_guess
      step := step0
      diff := 1 }).args

/-! ### The multi-start initializer `initial_grid` (`covest.py` lines 328-360)

`random.uniform(a, b)` returns `a + (b - a) * u` for a library-supplied
`u ∈ [0, 1]`; the draws are supplied as the explicit function
`draw : candidate index → parameter index → ℚ`.  The configuration constants
`INITIAL_GRID_COUNT` and `INITIAL_GRID_STEP` of the missing `config.py` are
passed as explicit parameters. -/

/-- `apply_bounds(interval, i)` (`covest.py` lines 330-339). -/
def apply_bounds (bounds : List (Option ℚ × Option ℚ)) (i : ℕ)
    (interval : ℚ × ℚ) : ℚ × ℚ :=
  match bounds.get? i with
  | none => interval
  | some (lb, rb) =>
    ((match lb with | none => interval.1 | some l => max interval.1 l),
     (match rb with | none => interval.2 | some r => min interval.2 r))

/-- `random.uniform(a, b) = a + (b - a) * u` with `u = random() ∈ [0, 1]`. -/
def uniform_at (u a b : ℚ) : ℚ :=
  a + (b - a) * u

/-- `generate_random_params()` (`covest.py` lines 341-348): clip the
multiplicative window `[var/step, var*step]` of each parameter to its bounds,
then draw each free parameter uniformly from its window; fixed parameters
take their fixed value. -/
def generate_random_params (draw : ℕ → ℚ) (initial_guess : List ℚ)
    (step : ℚ) (bounds : List (Option ℚ × Option ℚ))
    (fix : List (Option ℚ)) : List ℚ :=
  initial_guess.enum.map fun iv =>
    match fix.getD iv.1 none with
    | some f => f
    | none =>
      let w := apply_bounds bounds iv.1 (iv.2 / step, iv.2 * step)
      uniform_at (draw iv.1) w.1 w.2

/-- `initial_grid` (`covest.py` lines 328-360): empty for `count < 1`,
otherwise the unmodified guess followed by `count - 1` random candidates. -/
def initial_grid (draw : ℕ → ℕ → ℚ) (initial_guess : List ℚ) (count : ℕ)
    (step : ℚ) (bounds : List (Option ℚ × Option ℚ))
    (fix : List (Option ℚ)) : List (List ℚ) :=
  if count < 1 then []
  else initial_guess ::
    (List.range (count - 1)).map fun t =>
      generate_random_params (draw (t + 1)) initial_guess step bounds fix

/-! ### Division-checked mirrors of the likelihood evaluation

Python raises `ZeroDivisionError` on a zero denominator; the checked mirrors
below return `none` exactly where the source would raise, and `some` of the
computed value otherwise.  They follow the source expressions division by
division; list comprehensions over `range(...)` become `mapM` over the same
ranges. -/

/-- Checked division: `none` on a zero denominator (where Python would raise
`ZeroDivisionError`), `some (x / y)` otherwise. -/
def cdiv (x y : ℚ) : Option ℚ :=
  if y = 0 then none else some (x / y)

/-- Division-checked `p_j[j]` of `BasicModel.compute_probabilities`:
the divisions are `correct_c`'s division by `r` (line 72) and the
normalization `n_s[s] / sum_n_s` (line 90). -/
def BasicModel.p_val_checked (M : BasicModel) (fexp : ℚ → ℚ)
    (trP : ℚ → ℕ → ℚ) (c err : ℚ) (j : ℕ) : Option ℚ :=
  (cdiv (c * ((M.r : ℚ) - (M.k : ℚ) + 1)) (M.r : ℚ)).bind fun ck =>
    ((List.range M.max_error).mapM fun s =>
      (cdiv (M.n_s fexp ck err s) (M.sum_n_s fexp ck err)).map
        fun w => w * trP (lambda_s M.k ck err s) j).map
      fun terms => terms.sum

/-- Division-checked `BasicModel.compute_loglikelihood` (`models.py` lines
100-107): each histogram entry is paired with its checked predicted
probability; `none` propagates any division failure. -/
def BasicModel.compute_loglikelihood_checked (M : BasicModel)
    (fexp flog : ℚ → ℚ) (trP : ℚ → ℕ → ℚ) (args : List ℚ) : Option ℚ :=
  (M.hist.mapM fun je =>
    (M.p_val_checked fexp trP ((fit_to_bounds M.bounds args).getD 0 0)
        ((fit_to_bounds M.bounds args).getD 1 0) je.1).map
      fun v => (je.1, je.2, v)).map fun rows =>
    ((rows.filter fun x => x.2.1 ≠ 0).map fun x =>
      (x.2.1 : ℚ) * safe_log flog x.2.2).sum +
    (if min 1 ((rows.map fun x => x.2.2).sum) < 1
      then M.tail * safe_log flog (1 - min 1 ((rows.map fun x => x.2.2).sum))
      else 0)

/-- Division-checked `p_j[j]` of `RepeatsModel.compute_probabilities`
(`models.py` lines 211-242): the divisions are `correct_c`'s division by `r`
and the per-copy-number normalizations of line 231. -/
def RepeatsModel.p_val_checked (M : RepeatsModel) (fexp : ℚ → ℚ)
    (trP : ℚ → ℕ → ℚ) (c err q1 q2 q : ℚ) (j : ℕ) : Option ℚ :=
  (cdiv (c * ((M.r : ℚ) - (M.k : ℚ) + 1)) (M.r : ℚ)).bind fun ck =>
    ((List.range' 1
        (M.get_hist_threshold (RepeatsModel.get_b_o q1 q2 q) M.threshold - 1)).mapM
      fun o =>
        (((List.range M.max_error).mapM fun s =>
          (cdiv (M.n_os fexp ck err o s)
            (if M.sum_n_os fexp ck err o ≠ 0 then M.sum_n_os fexp ck err o
              else 1)).map
            fun w => w * trP ((o : ℚ) * lambda_s M.k ck err s) j).map
          fun inner => RepeatsModel.get_b_o q1 q2 q o * inner.sum)).map
      fun outer => outer.sum

/-- Division-checked `RepeatsModel.compute_loglikelihood`. -/
def RepeatsModel.compute_loglikelihood_checked (M : RepeatsModel)
    (fexp flog : ℚ → ℚ) (trP : ℚ → ℕ → ℚ) (args : List ℚ) : Option ℚ :=
  (M.hist.mapM fun je =>
    (M.p_val_checked fexp trP ((fit_to_bounds M.bounds args).getD 0 0)
        ((fit_to_bounds M.bounds args).getD 1 0)
        ((fit_to_bounds M.bounds args).getD 2 0)
        ((fit_to_bounds M.bounds args).getD 3 0)
        ((fit_to_bounds M.bounds args).getD 4 0) je.1).map
      fun v => (je.1, je.2, v)).map fun rows =>
    ((rows.filter fun x => x.2.1 ≠ 0).map fun x =>
      (x.2.1 : ℚ) * safe_log flog x.2.2).sum +
    (if min 1 ((rows.map fun x => x.2.2).sum) < 1
      then M.tail * safe_log flog (1 - min 1 ((rows.map fun x => x.2.2).sum))
      else 0)

/-- A small concrete basic model (`k = 1`, `r = 2`, histogram `{1: 1}`,
`max_error = 2`) used to instantiate general theorems. -/
def exampleBasicModel : BasicModel :=
  ⟨1, 2, [(1, 1)], 0, none, 2⟩

/-- A small concrete repeats model (`k = 1`, `r = 2`, histogram
`{1: 1, 3: 2}`, `max_error = 2`, threshold `1e-8`) used to instantiate
general theorems. -/
def exampleRepeatsModel : RepeatsModel :=
  ⟨1, 2, [(1, 1), (3, 2)], 0, 2, some (1 / 100000000), 3 / 10⟩

/-! ## Theorems -/

/-- Claim C3 (amended): for `q1, q2 ∈ [0, 1]` and `q ∈ (0, 1]`, the
copy-number distribution returned by `RepeatsModel.get_b_o` has total mass
one: the tsum of `b_o` over all `o` is `1` (the `o = 0` term is zero, so
this is the series `q1 + (1-q1)q2` plus the geometric tail of the claim). -/
theorem C3_b_o_total_mass (q1 q2 q : ℚ)
    (hq1l : 0 ≤ q1) (hq1r : q1 ≤ 1) (hq2l : 0 ≤ q2) (hq2r : q2 ≤ 1)
    (hql : 0 < q) (hqr : q ≤ 1) :
    tsum (fun o : ℕ => ((RepeatsModel.get_b_o q1 q2 q o : ℚ) : ℝ)) = 1 := by
  set f : ℕ → ℝ := fun o => ((RepeatsModel.get_b_o q1 q2 q o : ℚ) : ℝ) with hf
  have hqR : (0 : ℝ) < (q : ℝ) := by exact_mod_cast hql
  have hr0 : (0 : ℝ) ≤ 1 - (q : ℝ) := by
    have : (q : ℝ) ≤ 1 := by exact_mod_cast hqr
    linarith
  have hr1 : (1 : ℝ) - (q : ℝ) < 1 := by linarith
  have hshift : ∀ i : ℕ, f (i + 3) =
      (((1 - q1) * (1 - q2) * q : ℚ) : ℝ) * (1 - (q : ℝ)) ^ i := by
    intro i
    have h0 : i + 3 ≠ 0 := by omega
    have h1 : i + 3 ≠ 1 := by omega
    have h2 : i + 3 ≠ 2 := by omega
    have h3 : i + 3 - 3 = i := by omega
    simp only [hf, RepeatsModel.get_b_o, if_neg h0, if_neg h1, if_neg h2, h3]
    push_cast
    ring
  have hsum3 : Summable (fun i => f (i + 3)) := by
    have h := (summable_geometric_of_lt_one hr0 hr1).mul_left
      (((1 - q1) * (1 - q2) * q : ℚ) : ℝ)
    exact h.congr fun i => (hshift i).symm
  have hsum : Summable f := (summable_nat_add_iff 3).mp hsum3
  rw [← sum_add_tsum_nat_add 3 hsum]
  have h012 : ∑ i in Finset.range 3, f i =
      (q1 : ℝ) + ((1 - q1 : ℚ) : ℝ) * ((q2 : ℚ) : ℝ) := by
    simp [Finset.sum_range_succ, hf, RepeatsModel.get_b_o]
  have htail : tsum (fun i : ℕ => f (i + 3)) =
      (((1 - q1) * (1 - q2) * q : ℚ) : ℝ) * (1 - (1 - (q : ℝ)))⁻¹ := by
    rw [tsum_congr hshift, tsum_mul_left, tsum_geometric_of_lt_one hr0 hr1]
  rw [h012, htail]
  have hq0 : (q : ℝ) ≠ 0 := ne_of_gt hqR
  push_cast
  field_simp
  ring

/-- Claim C3 witness: the amended total-mass theorem applied at the concrete
parameters `q1 = 1/2`, `q2 = 1/3`, `q = 1/4`. -/
theorem C3_b_o_total_mass_witness :
    tsum (fun o : ℕ => ((RepeatsModel.get_b_o (1/2) (1/3) (1/4) o : ℚ) : ℝ))
      = 1 :=
  C3_b_o_total_mass (1/2) (1/3) (1/4) (by norm_num) (by norm_num)
    (by norm_num) (by norm_num) (by norm_num) (by norm_num)

/-- Claim C3 counterexample: at `q1 = q2 = q = 0` — all three inside the
claimed range `[0, 1]` — every value of `b_o` is `0`, so the series sums to
`0`, not `1`: the geometric tail loses all its mass at `q = 0`. -/
theorem C3_b_o_total_mass_counterexample :
    ¬ (tsum (fun o : ℕ => ((RepeatsModel.get_b_o 0 0 0 o : ℚ) : ℝ)) = 1) := by
  have hz : ∀ o : ℕ, ((RepeatsModel.get_b_o 0 0 0 o : ℚ) : ℝ) = 0 := by
    intro o
    simp [RepeatsModel.get_b_o]
  rw [tsum_congr hz, tsum_zero]
  norm_num

/-- Claim C4: `optimize_grid` as a state machine — after any iteration the
step becomes `1 + (step - 1) * 0.75` exactly when that iteration's
accumulated improvement is below `1.0` (otherwise it is unchanged), and the
loop runs another iteration if and only if it is not the case that the
accumulated improvement is `≤ 0.1` and the step is `≤ 1.001`. -/
theorem C4_grid_refiner_transitions (fn : List ℚ → ℚ)
    (bounds : List (Option ℚ × Option ℚ)) (fix : List (Option ℚ))
    (depth : ℕ) (sgn : ℚ) :
    (∀ s : GridState,
      (grid_iter fn bounds fix depth sgn s).step =
        if (grid_iter fn bounds fix depth sgn s).diff < 1
        then 1 + (s.step - 1) * (3 / 4) else s.step) ∧
    (∀ (fuel : ℕ) (s : GridState),
      grid_loop fn bounds fix depth sgn (fuel + 1) s =
        if ¬ (s.diff ≤ 1 / 10 ∧ s.step ≤ 1001 / 1000)
        then grid_loop fn bounds fix depth sgn fuel
          (grid_iter fn bounds fix depth sgn s)
        else s) := by
  constructor
  · intro s
    rfl
  · intro fuel s
    have hiff : (1 / 10 < s.diff ∨ 1001 / 1000 < s.step) ↔
        ¬ (s.diff ≤ 1 / 10 ∧ s.step ≤ 1001 / 1000) := by
      constructor
      · rintro (h | h) ⟨h1, h2⟩
        · exact absurd h1 (not_le.mpr h)
        · exact absurd h2 (not_le.mpr h)
      · intro h
        rcases not_and_or.mp h with h | h
        · exact Or.inl (not_le.mp h)
        · exact Or.inr (not_le.mp h)
    rw [grid_loop]
    by_cases hc : 1 / 10 < s.diff ∨ 1001 / 1000 < s.step
    · rw [if_pos hc, if_pos (hiff.mp hc)]
    · rw [if_neg hc, if_neg fun hn => hc (hiff.mpr hn)]

/-- Folding the strict-improvement update over any candidate list keeps the
tracked value equal to `sgn *` the objective at the tracked argument vector
and never increases it. -/
theorem grid_update_foldl_invariant (fn : List ℚ → ℚ) (sgn : ℚ) :
    ∀ (l : List (List ℚ)) (acc : ℚ × List ℚ × ℚ),
      acc.1 = sgn * fn acc.2.1 →
      (l.foldl (grid_update fn sgn) acc).1
          = sgn * fn (l.foldl (grid_update fn sgn) acc).2.1
        ∧ (l.foldl (grid_update fn sgn) acc).1 ≤ acc.1
  | [], _, h => ⟨h, le_refl _⟩
  | x :: xs, acc, h => by
    rw [List.foldl_cons]
    have hstep : (grid_update fn sgn acc x).1
        = sgn * fn (grid_update fn sgn acc x).2.1
        ∧ (grid_update fn sgn acc x).1 ≤ acc.1 := by
      unfold grid_update
      by_cases hlt : sgn * fn x < acc.1
      · rw [if_pos hlt]
        exact ⟨rfl, le_of_lt hlt⟩
      · rw [if_neg hlt]
        exact ⟨h, le_refl _⟩
    have ih := grid_update_foldl_invariant fn sgn xs (grid_update fn sgn acc x)
      hstep.1
    exact ⟨ih.1, le_trans ih.2 hstep.2⟩

/-- A grid-search iteration keeps the tracked value equal to `sgn *` the
objective at the tracked vector and never increases it. -/
theorem grid_iter_invariant (fn : List ℚ → ℚ)
    (bounds : List (Option ℚ × Option ℚ)) (fix : List (Option ℚ))
    (depth : ℕ) (sgn : ℚ) (s : GridState) (h : s.val = sgn * fn s.args) :
    (grid_iter fn bounds fix depth sgn s).val
        = sgn * fn (grid_iter fn bounds fix depth sgn s).args
      ∧ (grid_iter fn bounds fix depth sgn s).val ≤ s.val :=
  grid_update_foldl_invariant fn sgn
    (generate_grid bounds fix s.args s.step depth) (s.val, s.args, 0) h

/-- The whole fueled loop keeps the tracked value equal to `sgn *` the
objective at the tracked vector and never increases it. -/
theorem grid_loop_invariant (fn : List ℚ → ℚ)
    (bounds : List (Option ℚ × Option ℚ)) (fix : List (Option ℚ))
    (depth : ℕ) (sgn : ℚ) :
    ∀ (fuel : ℕ) (s : GridState), s.val = sgn * fn s.args →
      (grid_loop fn bounds fix depth sgn fuel s).val
          = sgn * fn (grid_loop fn bounds fix depth sgn fuel s).args
        ∧ (grid_loop fn bounds fix depth sgn fuel s).val ≤ s.val
  | 0, _, h => ⟨h, le_refl _⟩
  | fuel + 1, s, h => by
    rw [grid_loop]
    by_cases hc : 1 / 10 < s.diff ∨ 1001 / 1000 < s.step
    · rw [if_pos hc]
      have hit := grid_iter_invariant fn bounds fix depth sgn s h
      have ih := grid_loop_invariant fn bounds fix depth sgn fuel
        (grid_iter fn bounds fix depth sgn s) hit.1
      exact ⟨ih.1, le_trans ih.2 hit.2⟩
    · rw [if_neg hc]
      exact ⟨h, le_refl _⟩

/-- Claim C10: with `maximize = False`, `optimize_grid` is a best-effort
improvement — the returned vector's objective value is at most the
objective value of the initial guess, and a single iteration started from a
state tracking `fn args` never increases the tracked best value. -/
theorem C10_optimize_grid_never_worse (fn : List ℚ → ℚ)
    (initial_guess : List ℚ) (bounds : List (Option ℚ × Option ℚ))
    (fix : List (Option ℚ)) (step0 : ℚ) (depth fuel : ℕ) :
    fn (optimize_grid fn initial_guess bounds false fix step0 depth fuel)
        ≤ fn initial_guess
  ∧ ∀ (args : List ℚ) (step diff : ℚ),
      (grid_iter fn bounds fix depth 1
        { args := args, val := fn args, step := step, diff := diff }).val
        ≤ fn args := by
  constructor
  · show fn ((grid_loop fn bounds fix depth 1 fuel
      { args := initial_guess, val := 1 * fn initial_guess, step := step0,
        diff := 1 }).args) ≤ fn initial_guess
    have h := grid_loop_invariant fn bounds fix depth 1 fuel
      { args := initial_guess, val := 1 * fn initial_guess, step := step0,
        diff := 1 } rfl
    have h2 : (1 : ℚ) * fn ((grid_loop fn bounds fix depth 1 fuel
        { args := initial_guess, val := 1 * fn initial_guess, step := step0,
          diff := 1 }).args) ≤ 1 * fn initial_guess := by
      rw [← h.1]
      exact h.2
    linarith
  · intro args step diff
    have h := grid_iter_invariant fn bounds fix depth 1
      { args := args, val := fn args, step := step, diff := diff }
      (by simp)
    exact h.2

/-- `fit_to_bounds` with an exhausted bounds list leaves the arguments
unchanged (Python `zip` semantics). -/
theorem fit_to_bounds_nil_left (l : List ℚ) : fit_to_bounds [] l = l := by
  cases l <;> rfl

/-- Claim C1: for both models and every parameter vector,
`compute_loglikelihood` first clips the parameters into the model's bounds,
computes the predicted distribution `p_j`, sets `sp = min(1, sum of the p_j
values)`, and returns the histogram-weighted `safe_log` sum over nonzero-count
multiplicities plus `tail * safe_log (1 - sp)` when `sp < 1` and plus `0`
when `sp = 1`. -/
theorem C1_loglikelihood_formula :
    (∀ (M : BasicModel) (fexp flog : ℚ → ℚ) (trP : ℚ → ℕ → ℚ)
        (c err : ℚ) (rest : List ℚ),
      M.compute_loglikelihood fexp flog trP (c :: err :: rest) =
        let c2 := clip1 (some (1 / 100)) M.max_cov c
        let e2 := clip1 (some 0) (some (1 / 2)) err
        let sp := min 1
          (((M.compute_probabilities fexp trP c2 e2).map Prod.snd).sum)
        ((M.hist.filter fun je => je.2 ≠ 0).map fun je =>
            (je.2 : ℚ) * safe_log flog (M.p_val fexp trP c2 e2 je.1)).sum
          + (if sp < 1 then M.tail * safe_log flog (1 - sp) else 0))
  ∧ (∀ (M : RepeatsModel) (fexp flog : ℚ → ℚ) (trP : ℚ → ℕ → ℚ)
        (c err q1 q2 q : ℚ) (rest : List ℚ),
      M.compute_loglikelihood fexp flog trP (c :: err :: q1 :: q2 :: q :: rest) =
        let c2 := clip1 (some (1 / 100)) none c
        let e2 := clip1 (some 0) (some (1 / 2)) err
        let q1c := clip1 (some M.min_single_copy) (some 1) q1
        let q2c := clip1 (some 0) (some 1) q2
        let qc := clip1 (some 0) (some 1) q
        let sp := min 1
          (((M.compute_probabilities fexp trP c2 e2 q1c q2c qc).map
            Prod.snd).sum)
        ((M.hist.filter fun je => je.2 ≠ 0).map fun je =>
            (je.2 : ℚ) *
              safe_log flog (M.p_val fexp trP c2 e2 q1c q2c qc je.1)).sum
          + (if sp < 1 then M.tail * safe_log flog (1 - sp) else 0)) := by
  constructor
  · intro M fexp flog trP c err rest
    have hfit : fit_to_bounds M.bounds (c :: err :: rest)
        = clip1 (some (1 / 100)) M.max_cov c ::
          clip1 (some 0) (some (1 / 2)) err :: rest := by
      show clip1 (some (1 / 100)) M.max_cov c ::
          clip1 (some 0) (some (1 / 2)) err :: fit_to_bounds [] rest = _
      rw [fit_to_bounds_nil_left]
    simp only [BasicModel.compute_loglikelihood, loglikelihood_core, hfit,
      BasicModel.compute_probabilities, List.map_map]
    rfl
  · intro M fexp flog trP c err q1 q2 q rest
    have hfit : fit_to_bounds M.bounds (c :: err :: q1 :: q2 :: q :: rest)
        = clip1 (some (1 / 100)) none c ::
          clip1 (some 0) (some (1 / 2)) err ::
          clip1 (some M.min_single_copy) (some 1) q1 ::
          clip1 (some 0) (some 1) q2 ::
          clip1 (some 0) (some 1) q :: rest := by
      show clip1 (some (1 / 100)) none c ::
          clip1 (some 0) (some (1 / 2)) err ::
          clip1 (some M.min_single_copy) (some 1) q1 ::
          clip1 (some 0) (some 1) q2 ::
          clip1 (some 0) (some 1) q :: fit_to_bounds [] rest = _
      rw [fit_to_bounds_nil_left]
    simp only [RepeatsModel.compute_loglikelihood, loglikelihood_core, hfit,
      RepeatsModel.compute_probabilities, List.map_map]
    rfl

/-- Exchanging a list sum with a finite sum. -/
theorem list_sum_finset_sum_comm {α β : Type} (l : List α) (t : Finset β)
    (g : β → α → ℚ) :
    (l.map fun x => ∑ s in t, g s x).sum = ∑ s in t, (l.map fun x => g s x).sum := by
  induction l with
  | nil => simp
  | cons x xs ih => simp [ih, Finset.sum_add_distrib]

/-- `fix_zero` of a nonnegative number is positive. -/
theorem fix_zero_pos_of_nonneg {x : ℚ} (h : 0 ≤ x) : 0 < fix_zero x := by
  unfold fix_zero
  by_cases hx : x = 0
  · rw [if_pos hx]
    norm_num
  · rw [if_neg hx]
    exact lt_of_le_of_ne h (Ne.symm hx)

/-- Under within-bounds parameters, every per-error-class Poisson rate of the
basic model is nonnegative. -/
theorem lambda_s_nonneg (k r : ℕ) (c err : ℚ) (s : ℕ)
    (hkr : k ≤ r) (hr : 0 < r) (hc : 0 ≤ c) (he0 : 0 ≤ err) (he1 : err ≤ 1) :
    0 ≤ lambda_s k (correct_c k r c) err s := by
  unfold lambda_s correct_c
  have h1 : (0 : ℚ) ≤ (r : ℚ) - (k : ℚ) + 1 := by
    have : (k : ℚ) ≤ (r : ℚ) := by exact_mod_cast hkr
    linarith
  have hrq : (0 : ℚ) ≤ (r : ℚ) := by positivity
  have hck : 0 ≤ c * ((r : ℚ) - (k : ℚ) + 1) / (r : ℚ) :=
    div_nonneg (mul_nonneg hc h1) hrq
  have h3 : (0 : ℚ) ≤ (3 : ℚ) ^ (-(s : ℤ)) := by positivity
  have h4 : (0 : ℚ) ≤ (1 - err) ^ (k - s) := pow_nonneg (by linarith) _
  have h5 : (0 : ℚ) ≤ err ^ s := pow_nonneg he0 _
  exact mul_nonneg (mul_nonneg (mul_nonneg hck h3) h4) h5

/-- Claim C2: for within-bounds `(coverage, error_rate)` and abstract numeric
primitives with the interface properties the source relies on — `exp` is at
most `1` on nonpositive inputs, and `truncated_poisson` always lands in
`[0, 1]` and sums to at most `1` over the histogram's multiplicities — the
basic model's `compute_probabilities` returns a mapping keyed by the
histogram's multiplicities whose values all lie in `[0, 1]` and sum to at
most `1`. -/
theorem C2_probabilities_bounded (M : BasicModel) (fexp : ℚ → ℚ)
    (trP : ℚ → ℕ → ℚ) (c err : ℚ)
    (hkr : M.k ≤ M.r) (hr : 0 < M.r)
    (hc : 1 / 100 ≤ c) (hcU : ∀ mc, M.max_cov = some mc → c ≤ mc)
    (he0 : 0 ≤ err) (he1 : err ≤ 1 / 2)
    (hexp : ∀ x : ℚ, x ≤ 0 → fexp x ≤ 1)
    (htr : ∀ (lam : ℚ) (j : ℕ), 0 ≤ trP lam j ∧ trP lam j ≤ 1)
    (htrsum : ∀ lam : ℚ, (M.hist.map fun je => trP lam je.1).sum ≤ 1) :
    (∀ p ∈ M.compute_probabilities fexp trP c err, 0 ≤ p.2 ∧ p.2 ≤ 1)
  ∧ ((M.compute_probabilities fexp trP c err).map Prod.snd).sum ≤ 1
  ∧ (M.compute_probabilities fexp trP c err).map Prod.fst
      = M.hist.map Prod.fst := by
  have hc0 : (0 : ℚ) ≤ c := by linarith
  have he1' : err ≤ 1 := by linarith
  have hlam : ∀ s : ℕ, 0 ≤ lambda_s M.k (correct_c M.k M.r c) err s :=
    fun s => lambda_s_nonneg M.k M.r c err s hkr hr hc0 he0 he1'
  have hns : ∀ s : ℕ, 0 ≤ M.n_s fexp (correct_c M.k M.r c) err s := by
    intro s
    unfold BasicModel.n_s combCoef
    have h1 : (0 : ℚ) ≤ (Nat.choose M.k s : ℚ) * 3 ^ s := by positivity
    have h2 : fexp (-(lambda_s M.k (correct_c M.k M.r c) err s)) ≤ 1 :=
      hexp _ (by linarith [hlam s])
    exact mul_nonneg h1 (by linarith)
  have hS : 0 ≤ ∑ t in Finset.range M.max_error,
      M.n_s fexp (correct_c M.k M.r c) err t :=
    Finset.sum_nonneg fun t _ => hns t
  have hfz : 0 < M.sum_n_s fexp (correct_c M.k M.r c) err :=
    fix_zero_pos_of_nonneg hS
  have has : ∀ s : ℕ, 0 ≤ M.a_s fexp (correct_c M.k M.r c) err s :=
    fun s => div_nonneg (hns s) (le_of_lt hfz)
  have hasum : ∑ s in Finset.range M.max_error,
      M.a_s fexp (correct_c M.k M.r c) err s ≤ 1 := by
    unfold BasicModel.a_s
    rw [← Finset.sum_div]
    unfold BasicModel.sum_n_s
    set S := ∑ t in Finset.range M.max_error,
      M.n_s fexp (correct_c M.k M.r c) err t with hSdef
    by_cases hS0 : S = 0
    · rw [hS0]
      simp
    · have : fix_zero S = S := by
        unfold fix_zero
        rw [if_neg hS0]
      rw [this, div_self hS0]
  have hval : ∀ j : ℕ, 0 ≤ M.p_val fexp trP c err j ∧
      M.p_val fexp trP c err j ≤ 1 := by
    intro j
    constructor
    · exact Finset.sum_nonneg fun s _ =>
        mul_nonneg (has s) (htr _ j).1
    · calc ∑ s in Finset.range M.max_error,
            M.a_s fexp (correct_c M.k M.r c) err s *
              trP (lambda_s M.k (correct_c M.k M.r c) err s) j
          ≤ ∑ s in Finset.range M.max_error,
            M.a_s fexp (correct_c M.k M.r c) err s := by
            apply Finset.sum_le_sum
            intro s _
            calc M.a_s fexp (correct_c M.k M.r c) err s *
                  trP (lambda_s M.k (correct_c M.k M.r c) err s) j
                ≤ M.a_s fexp (correct_c M.k M.r c) err s * 1 :=
                  mul_le_mul_of_nonneg_left (htr _ j).2 (has s)
              _ = M.a_s fexp (correct_c M.k M.r c) err s := mul_one _
      _ ≤ 1 := hasum
  refine ⟨?_, ?_, ?_⟩
  · intro p hp
    unfold BasicModel.compute_probabilities at hp
    obtain ⟨je, _, rfl⟩ := List.mem_map.mp hp
    exact hval je.1
  · unfold BasicModel.compute_probabilities
    rw [List.map_map]
    have hrw : ((fun je : ℕ × ℚ => je.2) ∘ fun je : ℕ × ℕ =>
        (je.1, M.p_val fexp trP c err je.1)) =
        fun je : ℕ × ℕ => M.p_val fexp trP c err je.1 := rfl
    show (M.hist.map ((fun je : ℕ × ℚ => je.2) ∘ fun je : ℕ × ℕ =>
        (je.1, M.p_val fexp trP c err je.1))).sum ≤ 1
    rw [hrw]
    unfold BasicModel.p_val
    rw [list_sum_finset_sum_comm]
    calc ∑ s in Finset.range M.max_error,
          (M.hist.map fun je =>
            M.a_s fexp (correct_c M.k M.r c) err s *
              trP (lambda_s M.k (correct_c M.k M.r c) err s) je.1).sum
        ≤ ∑ s in Finset.range M.max_error,
          M.a_s fexp (correct_c M.k M.r c) err s := by
          apply Finset.sum_le_sum
          intro s _
          rw [List.sum_map_mul_left]
          calc M.a_s fexp (correct_c M.k M.r c) err s *
                (M.hist.map fun je =>
                  trP (lambda_s M.k (correct_c M.k M.r c) err s) je.1).sum
              ≤ M.a_s fexp (correct_c M.k M.r c) err s * 1 :=
                mul_le_mul_of_nonneg_left (htrsum _) (has s)
            _ = M.a_s fexp (correct_c M.k M.r c) err s := mul_one _
      _ ≤ 1 := hasum
  · unfold BasicModel.compute_probabilities
    rw [List.map_map]
    rfl

/-- Claim C2 witness: the bounded-probabilities theorem applied to a concrete
basic model (`k = 2`, `r = 3`, histogram `{1: 2, 2: 1}`), constant
primitives `fexp = 1/2`, `trP = 1/4`, and parameters `c = 1`,
`err = 1/4`. -/
theorem C2_probabilities_bounded_witness :
    (∀ p ∈ BasicModel.compute_probabilities
        ⟨2, 3, [(1, 2), (2, 1)], 0, none, 3⟩ (fun _ => 1 / 2)
        (fun _ _ => 1 / 4) 1 (1 / 4), 0 ≤ p.2 ∧ p.2 ≤ 1)
  ∧ ((BasicModel.compute_probabilities
        ⟨2, 3, [(1, 2), (2, 1)], 0, none, 3⟩ (fun _ => 1 / 2)
        (fun _ _ => 1 / 4) 1 (1 / 4)).map Prod.snd).sum ≤ 1
  ∧ (BasicModel.compute_probabilities
        ⟨2, 3, [(1, 2), (2, 1)], 0, none, 3⟩ (fun _ => 1 / 2)
        (fun _ _ => 1 / 4) 1 (1 / 4)).map Prod.fst
      = ([(1, 2), (2, 1)] : List (ℕ × ℕ)).map Prod.fst :=
  C2_probabilities_bounded ⟨2, 3, [(1, 2), (2, 1)], 0, none, 3⟩
    (fun _ => 1 / 2) (fun _ _ => 1 / 4) 1 (1 / 4)
    (by norm_num) (by norm_num) (by norm_num)
    (fun mc h => by simp at h) (by norm_num) (by norm_num)
    (fun x _ => by norm_num) (fun lam j => by norm_num)
    (fun lam => by norm_num)

/-- Claim C6 counterexample, refuting each part of the claim that the
amendment weakens.  First: with guess `[1, 0.3]`, fix mask `[None, 0.0]` and
`count = 1`, the returned grid is `[[1, 0.3]]` — its only candidate (the
unmodified guess) does not hold the fixed parameter at the fixed value `0`.
Second: with the free guess coordinate `3` above its bounds `(0, 1)` and
step `2`, the clipped window is the empty `[3/2, 1]` and the drawn value
`3/2` of the second candidate violates its upper end.  Third: with the free
guess coordinate `-1` (negative, no bounds) and step `2`, the window
`[-1/2, -2]` is reversed and the drawn value `-1/2` of the second candidate
violates its upper end. -/
theorem C6_initial_grid_counterexample :
    (¬ (∀ cand ∈ initial_grid (fun _ _ => 0) [1, 3/10] 1 2 [] [none, some 0],
        ∀ i v, ([none, some 0] : List (Option ℚ)).getD i none = some v →
          cand.get? i = some v))
  ∧ (¬ (∀ cand ∈ (initial_grid (fun _ _ => 0) [3] 2 2 [(some 0, some 1)]
          [none]).tail,
        ∀ y, cand.get? 0 = some y →
          (apply_bounds [(some 0, some 1)] 0 (3 / 2, 3 * 2)).1 ≤ y ∧
            y ≤ (apply_bounds [(some 0, some 1)] 0 (3 / 2, 3 * 2)).2))
  ∧ (¬ (∀ cand ∈ (initial_grid (fun _ _ => 0) [-1] 2 2 [] [none]).tail,
        ∀ y, cand.get? 0 = some y →
          (apply_bounds [] 0 ((-1) / 2, (-1) * 2)).1 ≤ y ∧
            y ≤ (apply_bounds [] 0 ((-1) / 2, (-1) * 2)).2)) := by
  refine ⟨?_, ?_, ?_⟩
  · intro h
    have hmem : ([1, 3/10] : List ℚ) ∈
        initial_grid (fun _ _ => 0) [1, 3/10] 1 2 [] [none, some 0] := by
      simp [initial_grid]
    have := h [1, 3/10] hmem 1 0 rfl
    simp at this
  · intro h
    have hnot : ¬ (2 : ℕ) < 1 := by norm_num
    have htail : (initial_grid (fun _ _ => 0) [3] 2 2 [(some 0, some 1)]
        [none]).tail
        = [generate_random_params (fun _ => (0 : ℚ)) [3] 2
            [(some 0, some 1)] [none]] := rfl
    have hmem : generate_random_params (fun _ => (0 : ℚ)) [3] 2
        [(some 0, some 1)] [none] ∈
        (initial_grid (fun _ _ => 0) [3] 2 2 [(some 0, some 1)]
          [none]).tail := by
      rw [htail]
      exact List.mem_singleton_self _
    have hget : (generate_random_params (fun _ => (0 : ℚ)) [3] 2
        [(some 0, some 1)] [none]).get? 0
        = some (uniform_at 0
            (apply_bounds [(some 0, some 1)] 0 (3 / 2, 3 * 2)).1
            (apply_bounds [(some 0, some 1)] 0 (3 / 2, 3 * 2)).2) := by
      unfold generate_random_params
      rw [List.get?_map, List.get?_enum]
      rfl
    have h2 := h _ hmem _ hget
    have hw1 : (apply_bounds [(some 0, some 1)] 0 (3 / 2, 3 * 2)).1
        = 3 / 2 := by
      norm_num [apply_bounds]
    have hw2 : (apply_bounds [(some 0, some 1)] 0 (3 / 2, 3 * 2)).2 = 1 := by
      norm_num [apply_bounds]
    rw [hw1, hw2] at h2
    norm_num [uniform_at] at h2
  · intro h
    have hnot : ¬ (2 : ℕ) < 1 := by norm_num
    have htail : (initial_grid (fun _ _ => 0) [-1] 2 2 [] [none]).tail
        = [generate_random_params (fun _ => (0 : ℚ)) [-1] 2 [] [none]] := rfl
    have hmem : generate_random_params (fun _ => (0 : ℚ)) [-1] 2 [] [none] ∈
        (initial_grid (fun _ _ => 0) [-1] 2 2 [] [none]).tail := by
      rw [htail]
      exact List.mem_singleton_self _
    have hget : (generate_random_params (fun _ => (0 : ℚ)) [-1] 2 []
        [none]).get? 0
        = some (uniform_at 0 (apply_bounds [] 0 ((-1) / 2, (-1) * 2)).1
            (apply_bounds [] 0 ((-1) / 2, (-1) * 2)).2) := by
      unfold generate_random_params
      rw [List.get?_map, List.get?_enum]
      rfl
    have h2 := h _ hmem _ hget
    have hw : apply_bounds [] 0 ((-1 : ℚ) / 2, (-1 : ℚ) * 2)
        = ((-1) / 2, (-1) * 2) := rfl
    rw [hw] at h2
    norm_num [uniform_at] at h2

/-- Interval containment for a uniform draw: `a + (b - a) * u ∈ [a, b]` for
`u ∈ [0, 1]` and `a ≤ b`. -/
theorem uniform_at_mem (u a b : ℚ) (hu0 : 0 ≤ u) (hu1 : u ≤ 1) (hab : a ≤ b) :
    a ≤ uniform_at u a b ∧ uniform_at u a b ≤ b := by
  unfold uniform_at
  constructor
  · nlinarith
  · nlinarith

/-- The clipped multiplicative window of a free in-bounds nonnegative
parameter still contains the parameter itself. -/
theorem apply_bounds_window (bounds : List (Option ℚ × Option ℚ)) (i : ℕ)
    (g step : ℚ) (hg : 0 ≤ g) (hstep : 1 ≤ step)
    (hbnd : ∀ lb rb, bounds.get? i = some (lb, rb) →
      (∀ l, lb = some l → l ≤ g) ∧ (∀ r, rb = some r → g ≤ r)) :
    (apply_bounds bounds i (g / step, g * step)).1 ≤ g ∧
      g ≤ (apply_bounds bounds i (g / step, g * step)).2 := by
  have hstep0 : (0 : ℚ) < step := by linarith
  have hlo : g / step ≤ g := by
    rw [div_le_iff hstep0]
    nlinarith
  have hhi : g ≤ g * step := le_mul_of_one_le_right hg hstep
  unfold apply_bounds
  cases hb : bounds.get? i with
  | none => exact ⟨hlo, hhi⟩
  | some lr =>
    obtain ⟨lb, rb⟩ := lr
    have hbnd' := hbnd lb rb hb
    constructor
    · cases lb with
      | none => exact hlo
      | some l => exact max_le hlo (hbnd'.1 l rfl)
    · cases rb with
      | none => exact hhi
      | some r => exact le_min hhi (hbnd'.2 r rfl)

/-- Claim C6 (amended): for `count ≥ 1`, a step `≥ 1`, uniform draws in
`[0, 1]`, and an initial guess whose free parameters are nonnegative and
within their bounds, the first candidate of `initial_grid` is the unmodified
guess, and every *subsequent* candidate holds each fixed parameter at exactly
its fixed value while each free parameter lies in the window
`[guess_i / step, guess_i * step]` clipped to that parameter's bounds.  (The
claim's "every candidate" fails for the first candidate, which is returned
unmodified.) -/
theorem C6_initial_grid_amended (draw : ℕ → ℕ → ℚ) (guess : List ℚ)
    (count : ℕ) (step : ℚ) (bounds : List (Option ℚ × Option ℚ))
    (fix : List (Option ℚ))
    (hcount : 1 ≤ count)
    (hdraw : ∀ t i, 0 ≤ draw t i ∧ draw t i ≤ 1)
    (hstep : 1 ≤ step)
    (hguess : ∀ i g, guess.get? i = some g → fix.getD i none = none →
      0 ≤ g ∧ ∀ lb rb, bounds.get? i = some (lb, rb) →
        (∀ l, lb = some l → l ≤ g) ∧ (∀ r, rb = some r → g ≤ r)) :
    (initial_grid draw guess count step bounds fix).get? 0 = some guess
  ∧ ∀ cand ∈ (initial_grid draw guess count step bounds fix).tail,
      ∀ i g, guess.get? i = some g →
        (∀ v, fix.getD i none = some v → cand.get? i = some v)
      ∧ (fix.getD i none = none → ∀ y, cand.get? i = some y →
          (apply_bounds bounds i (g / step, g * step)).1 ≤ y ∧
            y ≤ (apply_bounds bounds i (g / step, g * step)).2) := by
  have hnot : ¬ count < 1 := by omega
  constructor
  · unfold initial_grid
    rw [if_neg hnot]
    rfl
  · intro cand hcand i g hg
    unfold initial_grid at hcand
    rw [if_neg hnot] at hcand
    simp only [List.tail_cons, List.mem_map] at hcand
    obtain ⟨t, _, rfl⟩ := hcand
    have hget : (generate_random_params (draw (t + 1)) guess step bounds
        fix).get? i =
        some (match fix.getD i none with
          | some f => f
          | none =>
            uniform_at (draw (t + 1) i)
              (apply_bounds bounds i (g / step, g * step)).1
              (apply_bounds bounds i (g / step, g * step)).2) := by
      unfold generate_random_params
      rw [List.get?_map, List.get?_enum, hg]
      rfl
    constructor
    · intro v hv
      rw [hget, hv]
    · intro hfree y hy
      rw [hget, hfree] at hy
      simp only [Option.some.injEq] at hy
      obtain ⟨hg0, hbnd⟩ := hguess i g hg hfree
      have hwin := apply_bounds_window bounds i g step hg0 hstep hbnd
      have hmem := uniform_at_mem (draw (t + 1) i)
        (apply_bounds bounds i (g / step, g * step)).1
        (apply_bounds bounds i (g / step, g * step)).2
        (hdraw (t + 1) i).1 (hdraw (t + 1) i).2
        (le_trans hwin.1 hwin.2)
      rw [← hy]
      exact hmem

/-- Claim C6 witness: the amended theorem applied to the concrete call
`initial_grid` with guess `[1]`, `count = 2`, step `2`, no bounds, and a free
single parameter. -/
theorem C6_initial_grid_witness :
    (initial_grid (fun _ _ => 1/2) [1] 2 2 [] [none]).get? 0 = some [1]
  ∧ ∀ cand ∈ (initial_grid (fun _ _ => 1/2) [1] 2 2 [] [none]).tail,
      ∀ i g, ([1] : List ℚ).get? i = some g →
        (∀ v, ([none] : List (Option ℚ)).getD i none = some v →
          cand.get? i = some v)
      ∧ (([none] : List (Option ℚ)).getD i none = none →
          ∀ y, cand.get? i = some y →
            (apply_bounds [] i (g / 2, g * 2)).1 ≤ y ∧
              y ≤ (apply_bounds [] i (g / 2, g * 2)).2) :=
  C6_initial_grid_amended (fun _ _ => 1/2) [1] 2 2 [] [none]
    (by norm_num) (fun t i => by norm_num) (by norm_num)
    (fun i g hg _ => by
      cases i with
      | zero =>
        simp at hg
        subst hg
        exact ⟨by norm_num, fun lb rb h => by simp at h⟩
      | succ n => simp at hg)

/-- Characterization of the linear search in `get_hist_threshold`: a `some`
result is the first value in the scanned range satisfying the cutoff, and a
`none` result means no scanned value satisfies it. -/
theorem threshold_scan_spec (b : ℕ → ℚ) (θ : ℚ) :
    ∀ n start : ℕ,
      (∀ o, threshold_scan b θ start n = some o →
        start ≤ o ∧ o < start + n ∧ b o ≤ θ ∧
          ∀ m, start ≤ m → m < o → θ < b m)
    ∧ (threshold_scan b θ start n = none →
        ∀ m, start ≤ m → m < start + n → θ < b m) := by
  intro n
  induction n with
  | zero =>
    intro start
    constructor
    · intro o h
      simp [threshold_scan] at h
    · intro _ m hm1 hm2
      omega
  | succ n ih =>
    intro start
    constructor
    · intro o h
      rw [threshold_scan] at h
      by_cases hb : b start ≤ θ
      · rw [if_pos hb] at h
        injection h with h
        subst h
        exact ⟨le_refl _, by omega, hb, fun m hm1 hm2 => absurd hm1 (by omega)⟩
      · rw [if_neg hb] at h
        obtain ⟨h1, h2, h3, h4⟩ := (ih (start + 1)).1 o h
        refine ⟨by omega, by omega, h3, ?_⟩
        intro m hm1 hm2
        by_cases hm : m = start
        · subst hm
          exact lt_of_not_le hb
        · exact h4 m (by omega) hm2
    · intro h m hm1 hm2
      rw [threshold_scan] at h
      by_cases hb : b start ≤ θ
      · rw [if_pos hb] at h
        cases h
      · rw [if_neg hb] at h
        by_cases hm : m = start
        · subst hm
          exact lt_of_not_le hb
        · exact (ih (start + 1)).2 h m (by omega) (by omega)

/-- Claim C7: for a `RepeatsModel` with threshold `1e-8`, the truncation
point `threshold_o` used by `compute_probabilities` is either the first
`o ≥ 1` below the histogram's maximum multiplicity at which `b_o(o)` falls
to or below the threshold, or that maximum multiplicity when no scanned `o`
does; and each `p_j` mixes copy numbers over exactly
`o = 1, …, threshold_o - 1`. -/
theorem C7_threshold_truncation (M : RepeatsModel) (q1 q2 q : ℚ)
    (hθ : M.threshold = some (1 / 100000000)) :
    ((1 ≤ M.get_hist_threshold (RepeatsModel.get_b_o q1 q2 q) M.threshold
        ∧ M.get_hist_threshold (RepeatsModel.get_b_o q1 q2 q) M.threshold
            < histMax M.hist
        ∧ RepeatsModel.get_b_o q1 q2 q
            (M.get_hist_threshold (RepeatsModel.get_b_o q1 q2 q) M.threshold)
            ≤ 1 / 100000000
        ∧ ∀ m, 1 ≤ m →
            m < M.get_hist_threshold (RepeatsModel.get_b_o q1 q2 q) M.threshold →
            (1 / 100000000 : ℚ) < RepeatsModel.get_b_o q1 q2 q m)
      ∨ (M.get_hist_threshold (RepeatsModel.get_b_o q1 q2 q) M.threshold
            = histMax M.hist
        ∧ ∀ m, 1 ≤ m → m < histMax M.hist →
            (1 / 100000000 : ℚ) < RepeatsModel.get_b_o q1 q2 q m))
  ∧ ∀ (fexp : ℚ → ℚ) (trP : ℚ → ℕ → ℚ) (c err : ℚ) (j : ℕ),
      M.p_val fexp trP c err q1 q2 q j =
        ∑ o in Finset.Ico 1
            (M.get_hist_threshold (RepeatsModel.get_b_o q1 q2 q) M.threshold),
          RepeatsModel.get_b_o q1 q2 q o *
            ∑ s in Finset.range M.max_error,
              M.a_os fexp (correct_c M.k M.r c) err o s *
                trP ((o : ℚ) * lambda_s M.k (correct_c M.k M.r c) err s) j := by
  constructor
  · cases hscan : threshold_scan (RepeatsModel.get_b_o q1 q2 q)
        (1 / 100000000) 1 (histMax M.hist - 1) with
    | none =>
      have hT : M.get_hist_threshold (RepeatsModel.get_b_o q1 q2 q)
          M.threshold = histMax M.hist := by
        rw [hθ]
        show (match threshold_scan (RepeatsModel.get_b_o q1 q2 q)
            (1 / 100000000) 1 (histMax M.hist - 1) with
          | some o => o
          | none => histMax M.hist) = histMax M.hist
        rw [hscan]
      rw [hT]
      right
      refine ⟨rfl, ?_⟩
      intro m hm1 hm2
      exact (threshold_scan_spec (RepeatsModel.get_b_o q1 q2 q)
        (1 / 100000000) (histMax M.hist - 1) 1).2 hscan m hm1 (by omega)
    | some o =>
      have hT : M.get_hist_threshold (RepeatsModel.get_b_o q1 q2 q)
          M.threshold = o := by
        rw [hθ]
        show (match threshold_scan (RepeatsModel.get_b_o q1 q2 q)
            (1 / 100000000) 1 (histMax M.hist - 1) with
          | some o => o
          | none => histMax M.hist) = o
        rw [hscan]
      rw [hT]
      left
      obtain ⟨h1, h2, h3, h4⟩ := (threshold_scan_spec
        (RepeatsModel.get_b_o q1 q2 q) (1 / 100000000)
        (histMax M.hist - 1) 1).1 o hscan
      exact ⟨h1, by omega, h3, h4⟩
  · intro fexp trP c err j
    rfl

/-- Claim C7 witness: the truncation-point characterization applied to the
concrete repeats model `exampleRepeatsModel` at `q1 = q2 = q = 1/2`. -/
theorem C7_threshold_truncation_witness :
    ((1 ≤ exampleRepeatsModel.get_hist_threshold
          (RepeatsModel.get_b_o (1/2) (1/2) (1/2)) exampleRepeatsModel.threshold
        ∧ exampleRepeatsModel.get_hist_threshold
            (RepeatsModel.get_b_o (1/2) (1/2) (1/2)) exampleRepeatsModel.threshold
            < histMax exampleRepeatsModel.hist
        ∧ RepeatsModel.get_b_o (1/2) (1/2) (1/2)
            (exampleRepeatsModel.get_hist_threshold
              (RepeatsModel.get_b_o (1/2) (1/2) (1/2))
              exampleRepeatsModel.threshold)
            ≤ 1 / 100000000
        ∧ ∀ m, 1 ≤ m →
            m < exampleRepeatsModel.get_hist_threshold
              (RepeatsModel.get_b_o (1/2) (1/2) (1/2))
              exampleRepeatsModel.threshold →
            (1 / 100000000 : ℚ) < RepeatsModel.get_b_o (1/2) (1/2) (1/2) m)
      ∨ (exampleRepeatsModel.get_hist_threshold
            (RepeatsModel.get_b_o (1/2) (1/2) (1/2)) exampleRepeatsModel.threshold
            = histMax exampleRepeatsModel.hist
        ∧ ∀ m, 1 ≤ m → m < histMax exampleRepeatsModel.hist →
            (1 / 100000000 : ℚ) < RepeatsModel.get_b_o (1/2) (1/2) (1/2) m))
  ∧ ∀ (fexp : ℚ → ℚ) (trP : ℚ → ℕ → ℚ) (c err : ℚ) (j : ℕ),
      exampleRepeatsModel.p_val fexp trP c err (1/2) (1/2) (1/2) j =
        ∑ o in Finset.Ico 1
            (exampleRepeatsModel.get_hist_threshold
              (RepeatsModel.get_b_o (1/2) (1/2) (1/2))
              exampleRepeatsModel.threshold),
          RepeatsModel.get_b_o (1/2) (1/2) (1/2) o *
            ∑ s in Finset.range exampleRepeatsModel.max_error,
              exampleRepeatsModel.a_os fexp
                  (correct_c exampleRepeatsModel.k exampleRepeatsModel.r c)
                  err o s *
                trP ((o : ℚ) *
                  lambda_s exampleRepeatsModel.k
                    (correct_c exampleRepeatsModel.k exampleRepeatsModel.r c)
                    err s) j :=
  C7_threshold_truncation exampleRepeatsModel (1/2) (1/2) (1/2) rfl

/-- `fix_zero` never returns zero — the purpose of the fallback. -/
theorem fix_zero_ne_zero (x : ℚ) : fix_zero x ≠ 0 := by
  unfold fix_zero
  by_cases h : x = 0
  · rw [if_pos h]
    norm_num
  · rw [if_neg h]
    exact h

/-- The belt-and-suspenders denominator of `a_os` never vanishes. -/
theorem guard_denom_ne_zero (d : ℚ) : (if d ≠ 0 then d else 1) ≠ 0 := by
  by_cases h : d ≠ 0
  · rw [if_pos h]
    exact h
  · rw [if_neg h]
    norm_num

/-- Checked division succeeds exactly on nonzero denominators. -/
theorem cdiv_eq_some (x y : ℚ) (hy : y ≠ 0) : cdiv x y = some (x / y) := by
  unfold cdiv
  rw [if_neg hy]

/-- `mapM` over `Option` succeeds pointwise. -/
theorem list_mapM_eq_some {α β : Type} (f : α → Option β) (g : α → β) :
    ∀ l : List α, (∀ a ∈ l, f a = some (g a)) → l.mapM f = some (l.map g)
  | [], _ => rfl
  | x :: xs, h => by
    rw [List.mapM_cons, h x (List.mem_cons_self x xs),
      list_mapM_eq_some f g xs fun a ha => h a (List.mem_cons_of_mem x ha)]
    rfl

/-- Bridging a mapped `List.range` sum to the `Finset.range` sum. -/
theorem list_range_map_sum (f : ℕ → ℚ) (n : ℕ) :
    ((List.range n).map f).sum = ∑ i in Finset.range n, f i := by
  induction n with
  | zero => simp
  | succ n ih =>
    rw [List.range_succ, List.map_append, List.sum_append,
      Finset.sum_range_succ, ih]
    simp

/-- Bridging a mapped `List.range'` sum to a shifted `Finset.range` sum. -/
theorem list_range_shift_map_sum (f : ℕ → ℚ) :
    ∀ n start : ℕ,
      ((List.range' start n).map f).sum = ∑ i in Finset.range n, f (start + i) := by
  intro n
  induction n with
  | zero =>
    intro start
    simp
  | succ n ih =>
    intro start
    rw [List.range'_succ, List.map_cons, List.sum_cons, ih (start + 1),
      Finset.sum_range_succ' fun i => f (start + i)]
    have h1 : ∑ i in Finset.range n, f (start + 1 + i)
        = ∑ i in Finset.range n, f (start + (i + 1)) :=
      Finset.sum_congr rfl fun i _ => by
        rw [show start + 1 + i = start + (i + 1) from by omega]
    rw [h1, Nat.add_zero]
    exact add_comm _ _

/-- Bridging the `range(1, T)` list sum to the `Finset.Ico 1 T` sum. -/
theorem list_range_one_map_sum (f : ℕ → ℚ) (T : ℕ) :
    ((List.range' 1 (T - 1)).map f).sum = ∑ o in Finset.Ico 1 T, f o := by
  rw [list_range_shift_map_sum, Finset.sum_Ico_eq_sum_range]

/-- The checked error-class normalization of the basic model succeeds and
returns the `a_s`-weighted terms. -/
theorem basic_p_terms_eq (M : BasicModel) (fexp : ℚ → ℚ)
    (trP : ℚ → ℕ → ℚ) (ck err : ℚ) (j : ℕ) :
    ((List.range M.max_error).mapM fun s =>
      (cdiv (M.n_s fexp ck err s) (M.sum_n_s fexp ck err)).map
        fun w => w * trP (lambda_s M.k ck err s) j)
    = some ((List.range M.max_error).map fun s =>
        M.a_s fexp ck err s * trP (lambda_s M.k ck err s) j) :=
  list_mapM_eq_some _ _ _ fun s _ => by
    have hd : M.sum_n_s fexp ck err ≠ 0 := fix_zero_ne_zero _
    rw [cdiv_eq_some _ _ hd, Option.map_some']
    rfl

/-- The checked basic `p_j[j]` computation succeeds whenever `r ≠ 0`. -/
theorem basic_p_val_checked_eq (M : BasicModel) (fexp : ℚ → ℚ)
    (trP : ℚ → ℕ → ℚ) (c err : ℚ) (j : ℕ) (hr : (M.r : ℚ) ≠ 0) :
    M.p_val_checked fexp trP c err j = some (M.p_val fexp trP c err j) := by
  unfold BasicModel.p_val_checked
  rw [cdiv_eq_some _ _ hr]
  simp only [Option.some_bind]
  rw [basic_p_terms_eq, Option.map_some', list_range_map_sum]
  rfl

/-- The checked repeats error-class normalization succeeds. -/
theorem repeats_p_terms_eq (M : RepeatsModel) (fexp : ℚ → ℚ)
    (trP : ℚ → ℕ → ℚ) (ck err : ℚ) (o j : ℕ) :
    ((List.range M.max_error).mapM fun s =>
      (cdiv (M.n_os fexp ck err o s)
        (if M.sum_n_os fexp ck err o ≠ 0 then M.sum_n_os fexp ck err o
          else 1)).map
        fun w => w * trP ((o : ℚ) * lambda_s M.k ck err s) j)
    = some ((List.range M.max_error).map fun s =>
        M.a_os fexp ck err o s * trP ((o : ℚ) * lambda_s M.k ck err s) j) :=
  list_mapM_eq_some _ _ _ fun s _ => by
    rw [cdiv_eq_some _ _ (guard_denom_ne_zero _), Option.map_some']
    rfl

/-- The checked repeats copy-number mixture succeeds. -/
theorem repeats_outer_terms_eq (M : RepeatsModel) (fexp : ℚ → ℚ)
    (trP : ℚ → ℕ → ℚ) (ck err q1 q2 q : ℚ) (j : ℕ) :
    ((List.range' 1
        (M.get_hist_threshold (RepeatsModel.get_b_o q1 q2 q) M.threshold
          - 1)).mapM
      fun o =>
        (((List.range M.max_error).mapM fun s =>
          (cdiv (M.n_os fexp ck err o s)
            (if M.sum_n_os fexp ck err o ≠ 0 then M.sum_n_os fexp ck err o
              else 1)).map
            fun w => w * trP ((o : ℚ) * lambda_s M.k ck err s) j).map
          fun inner => RepeatsModel.get_b_o q1 q2 q o * inner.sum))
    = some ((List.range' 1
        (M.get_hist_threshold (RepeatsModel.get_b_o q1 q2 q) M.threshold
          - 1)).map
        fun o => RepeatsModel.get_b_o q1 q2 q o *
          ∑ s in Finset.range M.max_error,
            M.a_os fexp ck err o s * trP ((o : ℚ) * lambda_s M.k ck err s) j) :=
  list_mapM_eq_some _ _ _ fun o _ => by
    rw [repeats_p_terms_eq, Option.map_some', list_range_map_sum]

/-- The checked repeats `p_j[j]` computation succeeds whenever `r ≠ 0`. -/
theorem repeats_p_val_checked_eq (M : RepeatsModel) (fexp : ℚ → ℚ)
    (trP : ℚ → ℕ → ℚ) (c err q1 q2 q : ℚ) (j : ℕ) (hr : (M.r : ℚ) ≠ 0) :
    M.p_val_checked fexp trP c err q1 q2 q j
      = some (M.p_val fexp trP c err q1 q2 q j) := by
  unfold RepeatsModel.p_val_checked
  rw [cdiv_eq_some _ _ hr]
  simp only [Option.some_bind]
  rw [repeats_outer_terms_eq, Option.map_some', list_range_one_map_sum]
  rfl

/-- The checked basic log-likelihood succeeds whenever `r ≠ 0`. -/
theorem basic_loglikelihood_checked_eq (M : BasicModel)
    (fexp flog : ℚ → ℚ) (trP : ℚ → ℕ → ℚ) (args : List ℚ)
    (hr : (M.r : ℚ) ≠ 0) :
    M.compute_loglikelihood_checked fexp flog trP args
      = some (M.compute_loglikelihood fexp flog trP args) := by
  unfold BasicModel.compute_loglikelihood_checked
  rw [list_mapM_eq_some _
    (fun je : ℕ × ℕ => (je.1, je.2,
      M.p_val fexp trP ((fit_to_bounds M.bounds args).getD 0 0)
        ((fit_to_bounds M.bounds args).getD 1 0) je.1))
    M.hist
    (fun je _ => by rw [basic_p_val_checked_eq M _ _ _ _ _ hr, Option.map_some'])]
  rw [Option.map_some']
  simp only [List.filter_map, List.map_map]
  rfl

/-- The checked repeats log-likelihood succeeds whenever `r ≠ 0`. -/
theorem repeats_loglikelihood_checked_eq (M : RepeatsModel)
    (fexp flog : ℚ → ℚ) (trP : ℚ → ℕ → ℚ) (args : List ℚ)
    (hr : (M.r : ℚ) ≠ 0) :
    M.compute_loglikelihood_checked fexp flog trP args
      = some (M.compute_loglikelihood fexp flog trP args) := by
  unfold RepeatsModel.compute_loglikelihood_checked
  rw [list_mapM_eq_some _
    (fun je : ℕ × ℕ => (je.1, je.2,
      M.p_val fexp trP ((fit_to_bounds M.bounds args).getD 0 0)
        ((fit_to_bounds M.bounds args).getD 1 0)
        ((fit_to_bounds M.bounds args).getD 2 0)
        ((fit_to_bounds M.bounds args).getD 3 0)
        ((fit_to_bounds M.bounds args).getD 4 0) je.1))
    M.hist
    (fun je _ => by
      rw [repeats_p_val_checked_eq M _ _ _ _ _ _ _ _ hr, Option.map_some'])]
  rw [Option.map_some']
  simp only [List.filter_map, List.map_map]
  rfl

/-- Claim C8: for any model and parameter vector the likelihood evaluation is
total — the division-checked mirror never fails (given the construction
invariant `r > 0`), so a zero predicted probability is scored through
`safe_log`'s large finite penalty rather than an error, and a zero
normalizing sum is replaced by `1` through `fix_zero` rather than dividing
by zero. -/
theorem C8_loglikelihood_total (M : BasicModel) (M2 : RepeatsModel)
    (fexp flog : ℚ → ℚ) (trP : ℚ → ℕ → ℚ) (args args2 : List ℚ)
    (hr : (M.r : ℚ) ≠ 0) (hr2 : (M2.r : ℚ) ≠ 0) :
    M.compute_loglikelihood_checked fexp flog trP args
        = some (M.compute_loglikelihood fexp flog trP args)
  ∧ M2.compute_loglikelihood_checked fexp flog trP args2
        = some (M2.compute_loglikelihood fexp flog trP args2)
  ∧ (∀ x : ℚ, x ≤ 0 → safe_log flog x = logPenalty)
  ∧ fix_zero 0 = 1 :=
  ⟨basic_loglikelihood_checked_eq M fexp flog trP args hr,
   repeats_loglikelihood_checked_eq M2 fexp flog trP args2 hr2,
   fun x hx => by unfold safe_log; rw [if_pos hx],
   by unfold fix_zero; rw [if_pos rfl]⟩

/-- Claim C8 witness: totality of the likelihood evaluation at the concrete
models `exampleBasicModel` and `exampleRepeatsModel` with constant
primitives and the vectors `[1, 0]` and `[1, 0, 1/2, 1/2, 1/2]`. -/
theorem C8_loglikelihood_total_witness :
    exampleBasicModel.compute_loglikelihood_checked (fun _ => 1/2) (fun x => x)
        (fun _ _ => 1/4) [1, 0]
        = some (exampleBasicModel.compute_loglikelihood (fun _ => 1/2)
            (fun x => x) (fun _ _ => 1/4) [1, 0])
  ∧ exampleRepeatsModel.compute_loglikelihood_checked (fun _ => 1/2)
        (fun x => x) (fun _ _ => 1/4) [1, 0, 1/2, 1/2, 1/2]
        = some (exampleRepeatsModel.compute_loglikelihood (fun _ => 1/2)
            (fun x => x) (fun _ _ => 1/4) [1, 0, 1/2, 1/2, 1/2])
  ∧ (∀ x : ℚ, x ≤ 0 → safe_log (fun x => x) x = logPenalty)
  ∧ fix_zero 0 = 1 :=
  C8_loglikelihood_total exampleBasicModel exampleRepeatsModel
    (fun _ => 1/2) (fun x => x) (fun _ _ => 1/4) [1, 0] [1, 0, 1/2, 1/2, 1/2]
    (by norm_num [exampleBasicModel]) (by norm_num [exampleRepeatsModel])

end Covest
